import Mathlib

/-
Verification of the qsubgisom library (quantum subgraph-isomorphism ansatz
construction).  The Python module `qsubgisom/qsubgisom.py` is shallowly
embedded below: quantum circuits become explicit instruction lists, numpy
arrays become lists or explicit shape-plus-entry structures, numpy/Python
assertion failures become `Except.error`, and symbolic circuit parameters
(qiskit `ParameterVector` entries) become an inductive expression type.
-/

namespace Qsub

/-! ## String constants used by the source (labels, keywords, error texts) -/

def linearKw : String := "linear"

def circularKw : String := "circular"

def permAnsatzLabel : String := "PermAnsatz"

def permAnsatzDgLabel : String := "PermAnsatzDg"

def dgSuffix : String := "_dg"

def qAdjLabel : String := "QAdj"

def errTopology : String := "ValueError: Unrecognized topology"

def errIndex : String := "IndexError: register index out of range"

def errParamsShape : String := "AssertionError: params shape"

def errBlockParams : String := "AssertionError: s4 block parameter count"

def errSquare : String := "AssertionError: matrix must be square"

def errPow2 : String := "AssertionError: matrix side must be a power of two"

def errParity : String := "AssertionError: (n + 1) % 2 == 0"

def errDiagLen : String := "CircuitError: diagonal length is not a power of 2"

def errAdjOrder : String := "AssertionError: len(adj2) <= len(adj1)"

def errLog2Zero : String := "OverflowError: cannot convert float infinity to integer"

def errDkeys : String := "UnboundLocalError: local variable dkeys referenced before assignment"

def errSampleCount : String := "AssertionError: len(v) == n"

/-! ## Small numeric helpers

`bin(v).count("1")` from `_is_pow_2` is the binary popcount; `int(np.log2(x))`
(used by qiskit `Diagonal.num_qubits` and by `ansatz` for the Hadamard layer
width) is the floor base-2 logarithm on the power-of-two sizes that occur.
Both are written with an explicit structural fuel argument so that they are
kernel-computable. -/

def popCountFuel : ℕ → ℕ → ℕ
  | 0, _ => 0
  | _ + 1, 0 => 0
  | fuel + 1, n + 1 => popCountFuel fuel ((n + 1) / 2) + (n + 1) % 2

/-- Number of 1 digits in the binary expansion: `bin(v).count("1")`. -/
def popCount (n : ℕ) : ℕ := popCountFuel n n

def log2fuel : ℕ → ℕ → ℕ
  | 0, _ => 0
  | fuel + 1, n => if n < 2 then 0 else log2fuel fuel (n / 2) + 1

/-- `int(np.log2(n))` for positive `n` (exact on powers of two). -/
def log2n (n : ℕ) : ℕ := log2fuel n n

/-- `_is_pow_2(v)`: `bin(v).count("1") == 1 or v == 0`. -/
def _is_pow_2 (v : ℕ) : Bool := popCount v == 1 || v == 0

/-- The spec's notion of "exact power of two (including 1)". -/
def IsExactPow2 (v : ℕ) : Prop := ∃ k : ℕ, v = 2 ^ k

/-! ## Registers, symbolic angles, instructions and circuits -/

/-- `qiskit.QuantumRegister`: a named block of qubit slots. -/
structure QuantumRegister where
  size : ℕ
  name : String
deriving DecidableEq

/-- A circuit parameter expression: an entry of a `ParameterVector`
(`sym i` is the `i`-th symbolic scalar) or its negation (produced by
`QuantumCircuit.inverse`). -/
inductive AngleExpr where
  | sym : ℕ → AngleExpr
  | neg : AngleExpr → AngleExpr
deriving DecidableEq

/-- A circuit instruction.  Qubits are identified by their position in the
owning circuit's register list (register order `i`, `j`, `a` gives positions
`0..`).  `gate` is a circuit wrapped by `to_gate(label=...)`; its body keeps
gate-relative qubit positions and only the outer `qs` are remapped by
composition, as in qiskit.  `diag` is a qiskit `Diagonal` operator whose
±1 phases `exp(1j·π·bit)` are carried as their defining bit list. -/
inductive Instr where
  | h : ℕ → Instr
  | p : AngleExpr → ℕ → Instr
  | cp : AngleExpr → ℕ → ℕ → Instr
  | gate : String → List Instr → List ℕ → Instr
  | diag : String → List Bool → List ℕ → Instr

/-- `qiskit.QuantumCircuit`: registers plus an ordered instruction list. -/
structure QuantumCircuit where
  qregs : List QuantumRegister
  instrs : List Instr

instance : Inhabited QuantumCircuit := ⟨⟨[], []⟩⟩

def QuantumCircuit.numQubits (qc : QuantumCircuit) : ℕ :=
  (qc.qregs.map QuantumRegister.size).sum

/-- Remap the circuit-level qubit positions of one instruction. -/
def Instr.mapQubits (f : ℕ → ℕ) : Instr → Instr
  | .h q => .h (f q)
  | .p a q => .p a (f q)
  | .cp a c t => .cp a (f c) (f t)
  | .gate l body qs => .gate l body (qs.map f)
  | .diag l bits qs => .diag l bits (qs.map f)

/-- `QuantumCircuit.compose(other, qubits=..., front=..., inplace=True)`:
inline `other`'s instructions, remapping qubit `k` of `other` to
`qubits[k]` when a qubit list is given, before (`front`) or after the
existing instructions. -/
def QuantumCircuit.compose (qc other : QuantumCircuit) (qubits : Option (List ℕ))
    (front : Bool) : QuantumCircuit :=
  let f : ℕ → ℕ := fun q => match qubits with | none => q | some l => l.getD q q
  let new := other.instrs.map (Instr.mapQubits f)
  { qc with instrs := if front then new ++ qc.instrs else qc.instrs ++ new }

mutual

/-- Gate inversion: `h` is self-inverse, phases are negated, a wrapped gate
gets the `_dg` label suffix and its body reversed-and-inverted, and the ±1
diagonal is its own inverse. -/
def Instr.inverse : Instr → Instr
  | .h q => .h q
  | .p a q => .p (.neg a) q
  | .cp a c t => .cp (.neg a) c t
  | .gate l body qs => .gate (l ++ dgSuffix) (Instr.inverseList body).reverse qs
  | .diag l bits qs => .diag l bits qs

/-- Pointwise inversion of an instruction list. -/
def Instr.inverseList : List Instr → List Instr
  | [] => []
  | i :: is => Instr.inverse i :: Instr.inverseList is

end

/-- `QuantumCircuit.inverse()`: reversed instruction order, each gate inverted. -/
def QuantumCircuit.inverse (qc : QuantumCircuit) : QuantumCircuit :=
  { qc with instrs := (qc.instrs.map Instr.inverse).reverse }

/-- `_qc_block(qc, label)`: wrap a whole circuit as a single labeled gate over
all of its qubits, in order. -/
def _qc_block (qc : QuantumCircuit) (label : String) : QuantumCircuit :=
  ⟨qc.qregs, [.gate label qc.instrs (List.range qc.numQubits)]⟩

/-! ## The S4 block and the permutation ansatz -/

/-- `_hcph(phi, qc, qubits)`: Hadamard, (controlled) phase, Hadamard on the
target; `inl t` is the plain-int case (`ctrl = -1`), `inr (c, t)` the tuple
case. -/
def _hcph (phi : AngleExpr) : (ℕ ⊕ (ℕ × ℕ)) → List Instr
  | .inl t => [.h t, .p phi t, .h t]
  | .inr (c, t) => [.h t, .cp phi c t, .h t]

def S4_BLOCK_PARCOUNT : ℕ := 5

/-- `_s4_block(params)`: the fixed 5-parameter two-qubit block; asserts the
flattened parameter count is exactly 5. -/
def _s4_block (params : List AngleExpr) : Except String QuantumCircuit :=
  if params.length = S4_BLOCK_PARCOUNT then
    .ok ⟨[⟨2, "q"⟩],
      _hcph (params.getD 0 (.sym 0)) (.inl 0) ++
      [.h 1, .p (params.getD 1 (.sym 0)) 1, .cp (params.getD 2 (.sym 0)) 0 1, .h 1] ++
      _hcph (params.getD 3 (.sym 0)) (.inr (1, 0)) ++
      _hcph (params.getD 4 (.sym 0)) (.inr (0, 1))⟩
  else .error errBlockParams

/-- An ansatz topology: a named keyword or an explicit list of index pairs. -/
inductive Topology where
  | named : String → Topology
  | explicitPairs : List (ℕ × ℕ) → Topology

/-- `_map_qreg(array, qreg)`: map register-relative indices to qubit handles
(`qreg[i]`); an index at or beyond the register size raises.  (Python's
negative-index aliasing is outside the embedded domain: all indices the
library itself produces are non-negative.) -/
def _map_qreg (pairs : List (ℕ × ℕ)) (qreg : QuantumRegister) :
    Except String (List (ℕ × ℕ)) :=
  if pairs.all fun pr => pr.1 < qreg.size && pr.2 < qreg.size then .ok pairs
  else .error errIndex

/-- `_expand_topology(topology, qreg=...)`: expand `"linear"`/`"circular"`
into concrete entangling pairs, reject other keywords, and map every pair
into the register. -/
def _expand_topology : Topology → QuantumRegister → Except String (List (ℕ × ℕ))
  | .named s, qreg =>
    if s = linearKw ∨ s = circularKw then
      let v := (List.range (qreg.size - 1)).map fun k => (k, k + 1)
      let v := if s = circularKw ∧ 2 < qreg.size then v ++ [(qreg.size - 1, 0)] else v
      _map_qreg v qreg
    else .error errTopology
  | .explicitPairs ps, qreg => _map_qreg ps qreg

/-- `params_tensor(shape, name="t")`: a fresh `rows × cols` tensor of symbolic
parameters, numbered row-major like the underlying `ParameterVector`. -/
def params_tensor (rows cols : ℕ) : List (List AngleExpr) :=
  (List.range rows).map fun i => (List.range cols).map fun j => AngleExpr.sym (cols * i + j)

/-- One compose step of the `s4_ansatz` loop: inline the block built from one
parameter row onto the two qubits of one topology edge. -/
def s4_step (qc : QuantumCircuit) (vq : List AngleExpr × (ℕ × ℕ)) :
    Except String QuantumCircuit := do
  let blk ← _s4_block vq.1
  .ok (qc.compose blk (some [vq.2.1, vq.2.2]) false)

/-- The part of `s4_ansatz` after topology expansion: validate the `(E, 5)`
parameter tensor, compose one S4 block per edge and wrap the result as a
single `PermAnsatz` gate. -/
def s4_ansatz_core (qreg : QuantumRegister) (topo : List (ℕ × ℕ))
    (ps : List (List AngleExpr)) :
    Except String (QuantumCircuit × List (List AngleExpr)) :=
  if (∀ r ∈ ps, r.length = S4_BLOCK_PARCOUNT) ∧ ps.length = topo.length then
    (ps.zip topo).foldlM s4_step ⟨[qreg], []⟩ >>= fun qc =>
      .ok (⟨[qreg], [.gate permAnsatzLabel qc.instrs (List.range qreg.size)]⟩, ps)
  else .error errParamsShape

/-- `s4_ansatz(topology, qreg=..., params=...)`: expand the topology, then
build the permutation ansatz from the caller's parameter tensor or a freshly
allocated `(E, 5)` one. -/
def s4_ansatz (topology : Topology) (qreg : QuantumRegister)
    (params : Option (List (List AngleExpr))) :
    Except String (QuantumCircuit × List (List AngleExpr)) := do
  let topo ← _expand_topology topology qreg
  s4_ansatz_core qreg topo (params.getD (params_tensor topo.length S4_BLOCK_PARCOUNT))

/-! ## Adjacency matrices and the diagonal encoder

numpy arrays of `ndim == 2` are embedded as an explicit shape plus an entry
function; entries are integers (the adjacency matrices of this library are
0/1-valued, on which `np.round` is the identity). -/

structure NDArray where
  rows : ℕ
  cols : ℕ
  entry : ℕ → ℕ → ℤ

/-- The boolean matrix `np.round(adj) != 0`. -/
structure BoolGrid where
  rows : ℕ
  cols : ℕ
  entry : ℕ → ℕ → Bool

/-- `_mat_zero_ext(mat, shape=...)`: an all-zero array of the target shape
with the original written into its top-left block. -/
def _mat_zero_ext (mat : BoolGrid) (shape : ℕ × ℕ) : BoolGrid :=
  ⟨shape.1, shape.2, fun i j => if i < mat.rows ∧ j < mat.cols then mat.entry i j else false⟩

/-- `_pow2_shaped_mat_validation(mat)`: square with each dimension passing
`_is_pow_2`; returns the matrix unchanged. -/
def _pow2_shaped_mat_validation (mat : NDArray) : Except String NDArray :=
  if mat.rows = mat.cols then
    if _is_pow_2 mat.rows ∧ _is_pow_2 mat.cols then .ok mat else .error errPow2
  else .error errSquare

/-- `_circ_qregs(n)`: split `n` operator qubits (asserting `(n+1) % 2 == 0`)
into equal registers `i`, `j` plus the 1-qubit ancilla `a`. -/
def _circ_qregs (n : ℕ) : Except String (QuantumRegister × QuantumRegister × QuantumRegister) :=
  if (n + 1) % 2 = 0 then
    .ok (⟨(n - 1) / 2, "i"⟩, ⟨(n - 1) / 2, "j"⟩, ⟨1, "a"⟩)
  else .error errParity

/-- Row-major flattening of a boolean matrix. -/
def BoolGrid.flatten (b : BoolGrid) : List Bool :=
  ((List.range b.rows).map fun i => (List.range b.cols).map fun j => b.entry i j).flatten

/-- `adj if shape is None else _mat_zero_ext(adj, shape=shape)`. -/
def ext_or_keep (b : BoolGrid) : Option (ℕ × ℕ) → BoolGrid
  | none => b
  | some s => _mat_zero_ext b s

/-- The thresholded matrix `np.round(adj) != 0`. -/
def thresholded (adj : NDArray) : BoolGrid :=
  ⟨adj.rows, adj.cols, fun i j => adj.entry i j != 0⟩

/-- The flattened, zero-prefixed bit vector fed to `Diagonal`:
`np.concatenate([np.zeros_like(adj), adj])` of the row-major flattening of
the (optionally zero-extended) thresholded matrix. -/
def adj_bits (adj : NDArray) (shape : Option (ℕ × ℕ)) : List Bool :=
  List.replicate (ext_or_keep (thresholded adj) shape).flatten.length false ++
    (ext_or_keep (thresholded adj) shape).flatten

/-- `_adj_flatten_repr(adj, shape=...)`: threshold, optionally zero-extend,
check the (extended) side is a power of two, flatten, prepend the all-zero
ancilla half, and apply the resulting `Diagonal` (which itself accepts only
power-of-two lengths, and has `int(np.log2(len))` qubits) as a `QAdj` gate
over registers `i`, `j`, `a`. -/
def _adj_flatten_repr (adj : NDArray) (shape : Option (ℕ × ℕ)) :
    Except String QuantumCircuit :=
  if adj.rows = adj.cols then
    if _is_pow_2 (ext_or_keep (thresholded adj) shape).rows then
      if _is_pow_2 (adj_bits adj shape).length then
        _circ_qregs (log2n (adj_bits adj shape).length) >>= fun r =>
          .ok ⟨[r.1, r.2.1, r.2.2], [.diag qAdjLabel (adj_bits adj shape)
            (List.range (r.1.size + r.2.1.size + r.2.2.size))]⟩
      else .error errDiagLen
    else .error errPow2
  else .error errSquare

/-! ## The full ansatz assembler -/

/-- The Hadamard superposition layer: `h` on the first `hn` qubits of
registers `i` and `j` and on the whole ancilla register. -/
def h_layer_circ (ri rj ra : QuantumRegister) (hn : ℕ) : QuantumCircuit :=
  ⟨[ri, rj, ra],
    (List.range hn).map Instr.h ++
    (List.range hn).map (fun k => Instr.h (ri.size + k)) ++
    (List.range ra.size).map fun k => Instr.h (ri.size + rj.size + k)⟩

/-- The pure composition sequence of `ansatz`: starting from the `adj1`
diagonal encoder `qc0`, prepend the inverse permutation ansatz on registers
`i` and `j` when `gisom` is false, prepend the Hadamard layer, append the
permutation ansatz on `i` then `j`, append the `adj2` encoder and the
Hadamard layer again. -/
def ansatz_assemble (qc0 : QuantumCircuit) (ri rj ra : QuantumRegister) (hn : ℕ)
    (permqc : QuantumCircuit) (gisom : Bool) (diag2 : QuantumCircuit) :
    QuantumCircuit :=
  let iQ := List.range ri.size
  let jQ := (List.range rj.size).map fun k => ri.size + k
  let qc1 := if gisom then qc0 else
    ((qc0.compose (_qc_block permqc.inverse permAnsatzDgLabel) (some iQ) true).compose
      (_qc_block permqc.inverse permAnsatzDgLabel) (some jQ) true)
  let qc2 := qc1.compose (h_layer_circ ri rj ra hn) none true
  let qc3 := (qc2.compose permqc (some iQ) false).compose permqc (some jQ) false
  (qc3.compose diag2 none false).compose (h_layer_circ ri rj ra hn) none false

/-- `ansatz(adj1, adj2, topology=...)`: validate both adjacency matrices,
build the `adj1` diagonal encoder, the Hadamard layer and the shared
permutation ansatz, prepend the inverse permutation ansatz on registers `i`
and `j` exactly when the two shapes differ (`gisom` false), and assemble
layer ++ [inverses] ++ diag1 ++ perm_i ++ perm_j ++ diag2 ++ layer.
(`int(np.log2(0)) = int(-inf)` raises OverflowError in Python, hence the
explicit zero check before the Hadamard layer width `log2n` is taken.) -/
def ansatz (adj1 adj2 : NDArray) (topology : Topology) :
    Except String (QuantumCircuit × List (List AngleExpr)) := do
  let a1 ← _pow2_shaped_mat_validation adj1
  let a2 ← _pow2_shaped_mat_validation adj2
  if a2.rows ≤ a1.rows then do
    let qc0 ← _adj_flatten_repr a1 none
    let r ← _circ_qregs qc0.numQubits
    if a2.rows = 0 then .error errLog2Zero else do
      let pr ← s4_ansatz topology r.1 none
      let diag2 ← _adj_flatten_repr a2 (some (a1.rows, a1.cols))
      .ok (ansatz_assemble qc0 r.1 r.2.1 r.2.2 (log2n a2.rows) pr.1
        (a1.rows == a2.rows && a1.cols == a2.cols) diag2, pr.2)
  else .error errAdjOrder

/-- The circuit/parameter pair of a successful `ansatz` call. -/
def ansatz_run (adj1 adj2 : NDArray) (topology : Topology) :
    QuantumCircuit × List (List AngleExpr) :=
  match ansatz adj1 adj2 topology with
  | .ok r => r
  | .error _ => (⟨[], []⟩, [])

/-- Is this instruction a front-composed inverse permutation ansatz block? -/
def isDg : Instr → Bool
  | .gate l _ _ => l == permAnsatzDgLabel
  | _ => false

def dgCount (qc : QuantumCircuit) : ℕ := (qc.instrs.filter isDg).length

/-! ## Parameter post-processing -/

/-- Elementwise body of `thetas_to_prob`: normalize by π, take the absolute
value, split with `np.modf` (fractional and integer part; the argument is
non-negative, so the integer part is the floor), reduce the integer part
modulo 2 and return the absolute difference. -/
noncomputable def thetas_to_prob1 (x : ℝ) : ℝ :=
  let y := |x / Real.pi|
  let fr := y - ⌊y⌋
  let ip : ℤ := ⌊y⌋ % 2
  |fr - ip|

/-- `thetas_to_prob(x)` on a 1-D array. -/
noncomputable def thetas_to_prob (x : List ℝ) : List ℝ := x.map thetas_to_prob1

/-- Modelled from the spec: `np.random.default_rng(seed).uniform(size=(n, m))`
is external library code (numpy's PCG64 generator); it is modelled as a
deterministic function of the integer seed producing an `n × m` matrix of
values in `[0, 1)`.  (The `seed=None` branch draws operating-system entropy
and is outside the embedded domain.) -/
noncomputable def rng_uniform (seed n m : ℕ) : List (List ℝ) :=
  (List.range n).map fun i => (List.range m).map fun j =>
    (((seed + 1) * (2862933555777941757 * (i * m + j) + 3037000493) % 1000000007 : ℕ) : ℝ)
      / 1000000007

/-- Input of `sample_exact_thetas`: a plain array of angles or a named
mapping (dict) of angles (keys in insertion order, matching `values()`). -/
inductive ThetaInput where
  | arr : List ℝ → ThetaInput
  | dict : List String → List ℝ → ThetaInput

inductive ThetaOutput where
  | arr : List (List ℝ) → ThetaOutput
  | dicts : List (List (String × ℝ)) → ThetaOutput

/-- All angle values appearing in an output. -/
def ThetaOutput.values : ThetaOutput → List ℝ
  | .arr rows => rows.flatten
  | .dicts ds => (ds.map fun d => d.map Prod.snd).flatten

/-- One sampled row: angle `π` where the uniform draw is below the
closeness probability, else `0` (`(prob < v) * np.pi`). -/
noncomputable def sample_row (probs : List ℝ) (row : List ℝ) : List ℝ :=
  (row.zip probs).map fun pv => if pv.1 < pv.2 then Real.pi else 0

/-- `sample_exact_thetas(v, n=..., seed=...)`.  The local `dkeys` is assigned
only in the dict branch of the source; the final `if dkeys is not None`
therefore raises `UnboundLocalError` for a plain-array input, which is
modelled as an error. -/
noncomputable def sample_exact_thetas (v : ThetaInput) (n : ℕ) (seed : ℕ) :
    Except String ThetaOutput :=
  match v with
  | .dict dkeys vals =>
    let pv := thetas_to_prob vals
    let prob := rng_uniform seed n pv.length
    let out := prob.map (sample_row pv)
    let ds := out.map fun row => dkeys.zip row
    if ds.length = n then .ok (.dicts ds) else .error errSampleCount
  | .arr vals =>
    let pv := thetas_to_prob vals
    let prob := rng_uniform seed n pv.length
    let _out := prob.map (sample_row pv)
    .error errDkeys

/-- Every value of a successful sample is exactly 0 or exactly π. -/
def valuesBinary : Except String ThetaOutput → Prop
  | .ok out => ∀ x ∈ out.values, x = 0 ∨ x = Real.pi
  | .error _ => True

/-! ## Permutation two-line symbols -/

/-- `np.stack(np.nonzero(mat))` viewed column-wise: the coordinates of the
non-zero entries in row-major scan order, as (row, column) pairs. -/
def NDArray.nonzero (mat : NDArray) : List (ℕ × ℕ) :=
  ((List.range mat.rows).map fun i =>
    (List.range mat.cols).filterMap fun j =>
      if mat.entry i j ≠ 0 then some (i, j) else none).flatten

/-- Column order `a` before `b` when the top-row entry of `a` is at most that
of `b` (`np.argsort(mat[0])`). -/
def pairFstLe (a b : ℕ × ℕ) : Prop := a.1 ≤ b.1

instance : DecidableRel pairFstLe := fun a b => Nat.decLe a.1 b.1

instance : IsTotal (ℕ × ℕ) pairFstLe := ⟨fun a b => Nat.le_total a.1 b.1⟩

instance : IsTrans (ℕ × ℕ) pairFstLe := ⟨fun _ _ _ hab hbc => Nat.le_trans hab hbc⟩

/-- The lexicographic strengthening of `pairFstLe`, used to identify sorted
column lists with distinct top-row keys. -/
def pairLex (a b : ℕ × ℕ) : Prop := a.1 < b.1 ∨ (a.1 = b.1 ∧ a.2 ≤ b.2)

instance : IsAntisymm (ℕ × ℕ) pairLex where
  antisymm a b hab hba := by
    have h1 : a.1 = b.1 := by
      rcases hab with h | ⟨h, -⟩ <;> rcases hba with g | ⟨g, -⟩ <;> omega
    have h2 : a.2 = b.2 := by
      rcases hab with h | ⟨-, h⟩ <;> rcases hba with g | ⟨-, g⟩ <;> omega
    exact Prod.ext h1 h2

/-- `perm_to_2line(mat, inverse=...)`: the two-line symbol as a list of
(top, bottom) columns; the stacked nonzero rows are swapped unless `inverse`
and the columns are then sorted by the top row.  (`np.argsort` is an
unstable sort; on the distinct top-row keys of a permutation matrix every
comparison sort agrees, and an insertion sort is used here.) -/
def perm_to_2line (mat : NDArray) (inverse : Bool) : List (ℕ × ℕ) :=
  let m := mat.nonzero
  let m := if inverse then m else m.map Prod.swap
  List.insertionSort pairFstLe m

/-- The 0/1 permutation matrix of `σ`: a single 1 in column `c` at row
`σ c`. -/
def permMat (n : ℕ) (σ : Equiv.Perm (Fin n)) : NDArray :=
  ⟨n, n, fun i j => if h : j < n then (if (σ ⟨j, h⟩ : ℕ) = i then 1 else 0) else 0⟩

/-- Modelled from the spec: reconstructing a matrix from a two-line symbol
places a 1 at (image, domain) for every column (top = domain, bottom =
image) of the symbol. -/
def reconstruct_from_2line (n : ℕ) (sym : List (ℕ × ℕ)) : NDArray :=
  ⟨n, n, fun i j => if (j, i) ∈ sym then 1 else 0⟩

/-- `σ` as a function on ℕ (identity outside `[0, n)`). -/
def permFun (n : ℕ) (σ : Equiv.Perm (Fin n)) (j : ℕ) : ℕ :=
  if h : j < n then (σ ⟨j, h⟩ : ℕ) else j

/-! ## Concrete test inputs from the spec's examples -/

/-- The 4×4 cycle-graph adjacency matrix (edges 0-1, 1-2, 2-3, 3-0). -/
def cyc4 : NDArray :=
  ⟨4, 4, fun i j => if (i + 1) % 4 = j % 4 ∨ (j + 1) % 4 = i % 4 then 1 else 0⟩

/-- The 2×2 single-edge adjacency matrix. -/
def edge2 : NDArray := ⟨2, 2, fun i j => if i + j = 1 then 1 else 0⟩

/-! # Theorems -/

/-! ## Popcount and the power-of-two check (claim C3) -/

theorem popCountFuel_zero (f : ℕ) : popCountFuel f 0 = 0 := by
  cases f <;> rfl

theorem popCountFuel_congr (f₁ : ℕ) : ∀ f₂ n, n ≤ f₁ → n ≤ f₂ →
    popCountFuel f₁ n = popCountFuel f₂ n := by
  induction f₁ with
  | zero =>
    intro f₂ n h₁ _
    have hn : n = 0 := Nat.le_zero.1 h₁
    subst hn
    rw [popCountFuel_zero, popCountFuel_zero]
  | succ f ih =>
    intro f₂ n h₁ h₂
    match n, f₂ with
    | 0, f₂ => rw [popCountFuel_zero, popCountFuel_zero]
    | m + 1, 0 => omega
    | m + 1, g + 1 =>
      show popCountFuel f ((m + 1) / 2) + (m + 1) % 2 =
        popCountFuel g ((m + 1) / 2) + (m + 1) % 2
      rw [ih g ((m + 1) / 2) (by omega) (by omega)]

theorem popCount_step (n : ℕ) (h : 1 ≤ n) : popCount n = popCount (n / 2) + n % 2 := by
  match n, h with
  | m + 1, _ =>
    show popCountFuel (m + 1) (m + 1) = popCountFuel ((m + 1) / 2) ((m + 1) / 2) + (m + 1) % 2
    show popCountFuel m ((m + 1) / 2) + (m + 1) % 2 = _
    rw [popCountFuel_congr m ((m + 1) / 2) ((m + 1) / 2) (by omega) (by omega)]

theorem popCount_eq_zero_iff (n : ℕ) : popCount n = 0 ↔ n = 0 := by
  induction n using Nat.strong_induction_on with
  | _ n ih =>
    match n with
    | 0 => simp [popCount, popCountFuel]
    | m + 1 =>
      rw [popCount_step (m + 1) (by omega)]
      constructor
      · intro h
        have h2 : popCount ((m + 1) / 2) = 0 := by omega
        have h3 : (m + 1) % 2 = 0 := by omega
        have := (ih ((m + 1) / 2) (by omega)).1 h2
        omega
      · omega

theorem popCount_two_pow (k : ℕ) : popCount (2 ^ k) = 1 := by
  induction k with
  | zero => rfl
  | succ k ih =>
    rw [popCount_step (2 ^ (k + 1)) (Nat.one_le_two_pow)]
    have h2 : 2 ^ (k + 1) = 2 ^ k * 2 := by rw [pow_succ]
    rw [h2, Nat.mul_div_cancel _ (by omega), Nat.mul_mod_left, ih]

theorem popCount_eq_one_iff (n : ℕ) : popCount n = 1 ↔ IsExactPow2 n := by
  constructor
  · intro h
    induction n using Nat.strong_induction_on with
    | _ n ih =>
      match n with
      | 0 => simp [popCount, popCountFuel] at h
      | m + 1 =>
        rw [popCount_step (m + 1) (by omega)] at h
        rcases Nat.even_or_odd (m + 1) with he | ho
        · have hm : (m + 1) % 2 = 0 := Nat.even_iff.1 he
          have hp : popCount ((m + 1) / 2) = 1 := by omega
          rcases ih ((m + 1) / 2) (by omega) hp with ⟨k, hk⟩
          exact ⟨k + 1, by rw [pow_succ]; omega⟩
        · have hm : (m + 1) % 2 = 1 := Nat.odd_iff.1 ho
          have hp : popCount ((m + 1) / 2) = 0 := by omega
          have := (popCount_eq_zero_iff ((m + 1) / 2)).1 hp
          exact ⟨0, by omega⟩
  · rintro ⟨k, rfl⟩
    exact popCount_two_pow k

/-- C3: the power-of-two side check `_is_pow_2` accepts `v` exactly when `v`
is an exact power of two (including 1) OR when `v = 0` (the zero case is the
deviation from the claim); consequently `_pow2_shaped_mat_validation`
succeeds exactly on square matrices whose side is a power of two or zero,
and raises a shape-validation error on every other square matrix. -/
theorem is_pow_2_characterization (v : ℕ) (mat : NDArray) :
    (_is_pow_2 v = true ↔ (IsExactPow2 v ∨ v = 0)) ∧
    ((_pow2_shaped_mat_validation mat).isOk = true ↔
      (mat.rows = mat.cols ∧ (IsExactPow2 mat.rows ∨ mat.rows = 0))) := by
  have key : ∀ w, _is_pow_2 w = true ↔ (IsExactPow2 w ∨ w = 0) := by
    intro w
    unfold _is_pow_2
    rw [Bool.or_eq_true, beq_iff_eq, beq_iff_eq, popCount_eq_one_iff]
  refine ⟨key v, ?_⟩
  unfold _pow2_shaped_mat_validation
  by_cases hsq : mat.rows = mat.cols
  · rw [if_pos hsq]
    by_cases hp : _is_pow_2 mat.rows ∧ _is_pow_2 mat.cols
    · rw [if_pos hp]
      simp only [Except.isOk, Except.toBool, true_iff]
      exact ⟨hsq, (key mat.rows).1 hp.1⟩
    · rw [if_neg hp]
      simp only [Except.isOk, Except.toBool, Bool.false_eq_true, false_iff]
      rintro ⟨-, hpow⟩
      exact hp ⟨(key mat.rows).2 hpow, hsq ▸ (key mat.rows).2 hpow⟩
  · rw [if_neg hsq]
    simp only [Except.isOk, Except.toBool, Bool.false_eq_true, false_iff]
    rintro ⟨h, -⟩
    exact hsq h

/-- C3 counterexample: `_is_pow_2` accepts the side length 0, which is not an
exact power of two, so the claimed equivalence fails at `v = 0`. -/
theorem is_pow_2_zero_counterexample : _is_pow_2 0 = true ∧ ¬ IsExactPow2 0 := by
  refine ⟨rfl, ?_⟩
  rintro ⟨k, hk⟩
  exact absurd hk.symm (pow_ne_zero k (by norm_num))

/-! ## Topology expansion (claim C5) -/

theorem linear_pairs_all_bounded (N : ℕ) (hN : 1 ≤ N) :
    (((List.range (N - 1)).map fun k => (k, k + 1)).all
      fun pr => pr.1 < N && pr.2 < N) = true := by
  simp only [List.all_eq_true, List.mem_map, List.mem_range]
  rintro pr ⟨k, hk, rfl⟩
  simp only [Bool.and_eq_true, decide_eq_true_eq]
  omega

/-- C5: for every register size `N ≥ 2`, the `linear` topology expands to
exactly the `N - 1` pairs `(k, k + 1)`, `k ∈ [0, N - 2]`; `circular` at
`N = 2` expands to the same single pair as `linear`, and at `N > 2` to
`linear`'s pairs followed by the wrap-around pair `(N - 1, 0)`. -/
theorem expand_topology_linear_circular (N : ℕ) (nm : String) (hN : 2 ≤ N) :
    (_expand_topology (.named linearKw) ⟨N, nm⟩ =
        .ok ((List.range (N - 1)).map fun k => (k, k + 1)) ∧
      ((List.range (N - 1)).map fun k => (k, k + 1)).length = N - 1) ∧
    (N = 2 → _expand_topology (.named circularKw) ⟨N, nm⟩ =
        _expand_topology (.named linearKw) ⟨N, nm⟩) ∧
    (2 < N → _expand_topology (.named circularKw) ⟨N, nm⟩ =
        .ok (((List.range (N - 1)).map fun k => (k, k + 1)) ++ [(N - 1, 0)])) := by
  have hlin : _expand_topology (.named linearKw) ⟨N, nm⟩ =
      .ok ((List.range (N - 1)).map fun k => (k, k + 1)) := by
    simp only [_expand_topology]
    rw [if_pos (Or.inl trivial), if_neg (by simp [linearKw, circularKw])]
    unfold _map_qreg
    rw [if_pos (linear_pairs_all_bounded N (by omega))]
  refine ⟨⟨hlin, by simp⟩, ?_, ?_⟩
  · rintro rfl
    rw [hlin]
    simp only [_expand_topology]
    rw [if_pos (Or.inr trivial), if_neg (by norm_num)]
    unfold _map_qreg
    rw [if_pos (linear_pairs_all_bounded 2 (by omega))]
  · intro h2
    simp only [_expand_topology]
    rw [if_pos (Or.inr trivial), if_pos ⟨trivial, h2⟩]
    unfold _map_qreg
    rw [if_pos ?bounded]
    case bounded =>
      simp only [List.all_append, Bool.and_eq_true]
      refine ⟨linear_pairs_all_bounded N (by omega), ?_⟩
      simp only [List.all_cons, List.all_nil, Bool.and_eq_true, Bool.and_true,
        decide_eq_true_eq]
      omega

/-- C5 witness at `N = 3`. -/
theorem expand_topology_witness :
    _expand_topology (.named linearKw) ⟨3, "q"⟩ =
      .ok ((List.range 2).map fun k => (k, k + 1)) :=
  (expand_topology_linear_circular 3 "q" (by decide)).1.1

/-! ## Parameter tensor shape in the permutation ansatz (claim C9) -/

theorem except_bind_ok {α β : Type} (a : α) (f : α → Except String β) :
    (Except.ok a >>= f) = f a := rfl

theorem except_bind_error {α β : Type} (e : String) (f : α → Except String β) :
    ((Except.error e : Except String α) >>= f) = Except.error e := rfl

theorem except_bind_eq_ok {α β : Type} (x : Except String α) (f : α → Except String β)
    (b : β) : (x >>= f) = .ok b ↔ ∃ a, x = .ok a ∧ f a = .ok b := by
  cases x with
  | error e => simp [except_bind_error]
  | ok a => simp [except_bind_ok]

/-- C9: whenever `s4_ansatz` succeeds, the parameter tensor it returns has
first dimension equal to the number of expanded topology edges and every row
of length 5; and for every caller-supplied tensor whose first dimension
differs from the edge count or that has a row of length other than 5, the
call fails with the shape-validation error. -/
theorem s4_ansatz_param_shape (t : Topology) (qreg : QuantumRegister)
    (topo : List (ℕ × ℕ)) (ht : _expand_topology t qreg = .ok topo) :
    (∀ qc ps, s4_ansatz t qreg none = .ok (qc, ps) →
        ps.length = topo.length ∧ ∀ r ∈ ps, r.length = S4_BLOCK_PARCOUNT) ∧
    (∀ ps, ((∃ r ∈ ps, r.length ≠ S4_BLOCK_PARCOUNT) ∨ ps.length ≠ topo.length) →
        s4_ansatz t qreg (some ps) = .error errParamsShape) := by
  constructor
  · intro qc ps h
    unfold s4_ansatz at h
    rw [ht, except_bind_ok] at h
    simp only [Option.getD_none] at h
    unfold s4_ansatz_core at h
    split at h
    case isTrue hc =>
      rw [except_bind_eq_ok] at h
      obtain ⟨qcf, -, h⟩ := h
      simp only [Except.ok.injEq, Prod.mk.injEq] at h
      obtain ⟨-, rfl⟩ := h
      exact ⟨hc.2, hc.1⟩
    case isFalse hc => exact absurd h (by simp)
  · intro ps hbad
    unfold s4_ansatz
    rw [ht, except_bind_ok]
    simp only [Option.getD_some]
    unfold s4_ansatz_core
    rw [if_neg ?hc]
    case hc =>
      rintro ⟨hall, hlen⟩
      rcases hbad with ⟨r, hr, hne⟩ | hlen2
      · exact hne (hall r hr)
      · exact hlen2 hlen

/-- C9 witness: the expansion of `linear` over a 2-qubit register has one
edge, and the empty caller-supplied tensor is rejected. -/
theorem s4_ansatz_param_shape_witness :
    s4_ansatz (.named linearKw) ⟨2, "q"⟩ (some []) = .error errParamsShape :=
  (s4_ansatz_param_shape (.named linearKw) ⟨2, "q"⟩ [(0, 1)] rfl).2 []
    (Or.inr (by decide))

/-! ## The angle-to-probability map (claims C2 and C10) -/

theorem thetas_to_prob1_nat_mul (m : ℕ) :
    thetas_to_prob1 (m * Real.pi) = (((m : ℤ) % 2 : ℤ) : ℝ) := by
  have h1 : (m : ℝ) * Real.pi / Real.pi = (m : ℝ) :=
    mul_div_cancel_right₀ _ Real.pi_ne_zero
  have h2 : |(m : ℝ)| = (m : ℝ) := abs_of_nonneg (Nat.cast_nonneg m)
  have h3 : (0 : ℤ) ≤ (m : ℤ) % 2 := Int.emod_nonneg _ (by norm_num)
  simp only [thetas_to_prob1, h1, h2, Int.floor_natCast]
  rw [Int.cast_natCast, sub_self, zero_sub, abs_neg,
    abs_of_nonneg (by exact_mod_cast h3)]

/-- C2 counterexample: at `x = π` the code returns exactly 1, not the claimed
0. -/
theorem thetas_to_prob_pi_counterexample :
    thetas_to_prob1 Real.pi = 1 ∧ (1 : ℝ) ≠ 0 := by
  constructor
  · have h := thetas_to_prob1_nat_mul 1
    simpa using h
  · norm_num

/-- C2 amended: `thetas_to_prob` is 0 at even multiples of π
(`x = 0, 2π, 4π, ...`), 1 at odd multiples of π (`x = π, 3π, ...`) and 1/2 at
odd multiples of π/2 (`x = π/2, 3π/2, ...`), as exact values. -/
theorem thetas_to_prob_boundary (k : ℕ) :
    thetas_to_prob1 (2 * k * Real.pi) = 0 ∧
    thetas_to_prob1 ((2 * k + 1) * Real.pi) = 1 ∧
    thetas_to_prob1 ((2 * k + 1) * (Real.pi / 2)) = 1 / 2 := by
  refine ⟨?_, ?_, ?_⟩
  · have harg : 2 * (k : ℝ) * Real.pi = ((2 * k : ℕ) : ℝ) * Real.pi := by
      push_cast
      ring
    rw [harg, thetas_to_prob1_nat_mul]
    have hm : ((2 * k : ℕ) : ℤ) % 2 = 0 := by omega
    rw [hm, Int.cast_zero]
  · have harg : (2 * (k : ℝ) + 1) * Real.pi = ((2 * k + 1 : ℕ) : ℝ) * Real.pi := by
      push_cast
      ring
    rw [harg, thetas_to_prob1_nat_mul]
    have hm : ((2 * k + 1 : ℕ) : ℤ) % 2 = 1 := by omega
    rw [hm, Int.cast_one]
  · have h1 : (2 * (k : ℝ) + 1) * (Real.pi / 2) = ((k : ℝ) + 1 / 2) * Real.pi := by
      ring
    simp only [thetas_to_prob1, h1, mul_div_cancel_right₀ _ Real.pi_ne_zero]
    rw [abs_of_nonneg (by positivity : (0 : ℝ) ≤ (k : ℝ) + 1 / 2)]
    have hfloor : ⌊(k : ℝ) + 1 / 2⌋ = (k : ℤ) := by
      rw [Int.floor_eq_iff]
      constructor
      · push_cast
        linarith
      · push_cast
        linarith
    rw [hfloor, show (k : ℝ) + 1 / 2 - ((k : ℤ) : ℝ) = 1 / 2 by push_cast; ring]
    rcases Int.emod_two_eq_zero_or_one (k : ℤ) with hm | hm <;> rw [hm] <;> norm_num

/-- C10: for every real angle `x`, `thetas_to_prob(x)` lies in `[0, 1]`, so
every returned value is a valid Bernoulli probability for the sampling step
of `sample_exact_thetas`. -/
theorem thetas_to_prob_unit_interval (x : ℝ) :
    0 ≤ thetas_to_prob1 x ∧ thetas_to_prob1 x ≤ 1 := by
  simp only [thetas_to_prob1]
  refine ⟨abs_nonneg _, ?_⟩
  set y := |x / Real.pi| with hy
  have h0 : ((⌊y⌋ : ℤ) : ℝ) ≤ y := Int.floor_le y
  have h1 : y < (⌊y⌋ : ℝ) + 1 := Int.lt_floor_add_one y
  have h2 : (0 : ℤ) ≤ ⌊y⌋ % 2 := Int.emod_nonneg _ (by norm_num)
  have h3 : ⌊y⌋ % 2 < 2 := Int.emod_lt_of_pos _ (by norm_num)
  have h4 : (0 : ℝ) ≤ ((⌊y⌋ % 2 : ℤ) : ℝ) := by exact_mod_cast h2
  have h5 : ((⌊y⌋ % 2 : ℤ) : ℝ) ≤ 1 := by exact_mod_cast (by omega : (⌊y⌋ % 2 : ℤ) ≤ 1)
  rw [abs_le]
  constructor <;> linarith

/-! ## The sampler (claims C1 and C7) -/

/-- C1: a plain (non-dict) array input reaches the `if dkeys is not None`
check with `dkeys` never assigned, so `sample_exact_thetas` raises
`UnboundLocalError` instead of returning the sampled array. -/
theorem sample_exact_thetas_arr_raises :
    sample_exact_thetas (.arr [0]) 1 0 = .error errDkeys := rfl

theorem sample_row_mem (probs row : List ℝ) (x : ℝ) (hx : x ∈ sample_row probs row) :
    x = 0 ∨ x = Real.pi := by
  unfold sample_row at hx
  rcases List.mem_map.1 hx with ⟨pv, -, rfl⟩
  by_cases h : pv.1 < pv.2
  · exact Or.inr (if_pos h)
  · exact Or.inl (if_neg h)

/-- C7: with a fixed integer seed the sampler is deterministic (two calls on
identical inputs agree), and every angle value of a successful output is
exactly 0 or exactly π. -/
theorem sample_exact_thetas_deterministic_binary (v : ThetaInput) (n seed : ℕ) :
    sample_exact_thetas v n seed = sample_exact_thetas v n seed ∧
    valuesBinary (sample_exact_thetas v n seed) := by
  refine ⟨rfl, ?_⟩
  cases v with
  | arr vals => exact trivial
  | dict keys vals =>
    simp only [sample_exact_thetas]
    split
    case isTrue hlen =>
      simp only [valuesBinary, ThetaOutput.values]
      intro x hx
      simp only [List.mem_flatten, List.mem_map] at hx
      obtain ⟨l, ⟨d, hd, rfl⟩, hxl⟩ := hx
      obtain ⟨row, hrow, rfl⟩ := hd
      obtain ⟨⟨a, b⟩, hpr, rfl⟩ := List.mem_map.1 hxl
      have hmem : b ∈ row := (List.of_mem_zip hpr).2
      obtain ⟨r, -, rfl⟩ := hrow
      exact sample_row_mem _ _ _ hmem
    case isFalse => exact trivial

/-! ## Structure of the assembled ansatz (claims C4 and C8) -/

theorem validation_ok_eq (mat out : NDArray)
    (h : _pow2_shaped_mat_validation mat = .ok out) : out = mat := by
  unfold _pow2_shaped_mat_validation at h
  split at h
  · split at h
    · simpa using h.symm
    · simp at h
  · simp at h

theorem circ_qregs_ok (n : ℕ) (r : QuantumRegister × QuantumRegister × QuantumRegister)
    (h : _circ_qregs n = .ok r) :
    r = (⟨(n - 1) / 2, "i"⟩, ⟨(n - 1) / 2, "j"⟩, ⟨1, "a"⟩) := by
  unfold _circ_qregs at h
  split at h
  · simpa using h.symm
  · simp at h

theorem adj_flatten_repr_ok_shape (adj : NDArray) (shape : Option (ℕ × ℕ))
    (qc : QuantumCircuit) (h : _adj_flatten_repr adj shape = .ok qc) :
    ∃ ri rj ra bits,
      qc = ⟨[ri, rj, ra], [.diag qAdjLabel bits
        (List.range (QuantumRegister.size ri + QuantumRegister.size rj +
          QuantumRegister.size ra))]⟩ := by
  unfold _adj_flatten_repr at h
  split at h
  case isFalse => simp at h
  case isTrue =>
    split at h
    case isFalse => simp at h
    case isTrue =>
      split at h
      case isFalse => simp at h
      case isTrue =>
        rw [except_bind_eq_ok] at h
        obtain ⟨⟨ri, rj, ra⟩, -, h⟩ := h
        simp only [Except.ok.injEq] at h
        exact ⟨ri, rj, ra, _, h.symm⟩

theorem s4_ansatz_ok_shape (t : Topology) (qreg : QuantumRegister)
    (params : Option (List (List AngleExpr))) (qc : QuantumCircuit)
    (ps : List (List AngleExpr)) (h : s4_ansatz t qreg params = .ok (qc, ps)) :
    ∃ body, qc = ⟨[qreg], [.gate permAnsatzLabel body (List.range qreg.size)]⟩ := by
  unfold s4_ansatz at h
  rw [except_bind_eq_ok] at h
  obtain ⟨topo, -, h⟩ := h
  unfold s4_ansatz_core at h
  split at h
  case isFalse => simp at h
  case isTrue =>
    rw [except_bind_eq_ok] at h
    obtain ⟨qcf, -, h⟩ := h
    simp only [Except.ok.injEq, Prod.mk.injEq] at h
    exact ⟨qcf.instrs, h.1.symm⟩

theorem isDg_mapQubits (f : ℕ → ℕ) (ins : Instr) : isDg (ins.mapQubits f) = isDg ins := by
  cases ins <;> rfl

theorem mapQubits_id_eq (ins : Instr) : ins.mapQubits (fun q => q) = ins := by
  cases ins <;> simp [Instr.mapQubits]

theorem map_mapQubits_id (l : List Instr) : l.map (Instr.mapQubits fun q => q) = l := by
  induction l with
  | nil => rfl
  | cons a l ih => simp [mapQubits_id_eq, ih]

theorem map_getD_range (m : ℕ) :
    ((List.range m).map fun q => (List.range m).getD q q) = List.range m := by
  conv_rhs => rw [← List.map_id (List.range m)]
  apply List.map_congr_left
  intro q hq
  rw [List.mem_range] at hq
  rw [List.getD_eq_getElem?_getD, List.getElem?_range hq, Option.getD_some]
  rfl

theorem map_getD_map_range (m c : ℕ) :
    ((List.range m).map fun q => (((List.range m).map fun k => c + k).getD q q)) =
      (List.range m).map fun k => c + k := by
  apply List.map_congr_left
  intro q hq
  rw [List.mem_range] at hq
  rw [List.getD_eq_getElem?_getD, List.getElem?_map, List.getElem?_range hq]
  rfl

theorem filter_isDg_eq_nil (l : List Instr) (hl : ∀ i ∈ l, isDg i = false) :
    l.filter isDg = [] := List.filter_eq_nil_iff.mpr (by simpa using hl)

@[simp] theorem isDg_h (q : ℕ) : isDg (Instr.h q) = false := rfl

@[simp] theorem isDg_p (a : AngleExpr) (q : ℕ) : isDg (Instr.p a q) = false := rfl

@[simp] theorem isDg_cp (a : AngleExpr) (c t : ℕ) : isDg (Instr.cp a c t) = false := rfl

@[simp] theorem isDg_diag (l : String) (bits : List Bool) (qs : List ℕ) :
    isDg (Instr.diag l bits qs) = false := rfl

@[simp] theorem isDg_perm_gate (body : List Instr) (qs : List ℕ) :
    isDg (Instr.gate permAnsatzLabel body qs) = false := rfl

@[simp] theorem isDg_dg_gate (body : List Instr) (qs : List ℕ) :
    isDg (Instr.gate permAnsatzDgLabel body qs) = true := rfl

@[simp] theorem getElem?_range_getD_self (m a : ℕ) (ha : a < m) :
    ((List.range m)[a]?).getD a = a := by
  rw [List.getElem?_range ha, Option.getD_some]

@[simp] theorem getElem?_range_map_getD (m a c : ℕ) (ha : a < m) :
    (Option.map (fun k => c + k) (List.range m)[a]?).getD a = c + a := by
  rw [List.getElem?_range ha]
  rfl

@[simp] theorem map_range_getElem?_getD (m : ℕ) :
    (List.range m).map (fun q => ((List.range m)[q]?).getD q) = List.range m := by
  conv_rhs => rw [← List.map_id (List.range m)]
  apply List.map_congr_left
  intro q hq
  rw [List.mem_range] at hq
  rw [List.getElem?_range hq, Option.getD_some]
  rfl

theorem h_layer_mem_h (ri rj ra : QuantumRegister) (hn : ℕ) (i : Instr)
    (hi : i ∈ (h_layer_circ ri rj ra hn).instrs) : ∃ q, i = Instr.h q := by
  simp only [h_layer_circ, List.mem_append, List.mem_map] at hi
  rcases hi with (⟨q, -, rfl⟩ | ⟨q, -, rfl⟩) | ⟨q, -, rfl⟩
  exacts [⟨q, rfl⟩, ⟨_, rfl⟩, ⟨_, rfl⟩]

theorem filter_isDg_h_layer (ri rj ra : QuantumRegister) (hn : ℕ) :
    (h_layer_circ ri rj ra hn).instrs.filter isDg = [] := by
  apply filter_isDg_eq_nil
  intro i hi
  obtain ⟨q, rfl⟩ := h_layer_mem_h ri rj ra hn i hi
  rfl

/-- Instruction-level normal form of the assembled ansatz when the
permutation ansatz is the wrapped `PermAnsatz` gate over the `i` register
(as `s4_ansatz` always returns) and registers `i` and `j` have equal size. -/
theorem ansatz_assemble_instrs (qc0 : QuantumCircuit) (ri rj ra : QuantumRegister)
    (hn : ℕ) (body : List Instr) (gisom : Bool) (diag2 : QuantumCircuit)
    (hsz : rj.size = ri.size) :
    (ansatz_assemble qc0 ri rj ra hn
        ⟨[ri], [.gate permAnsatzLabel body (List.range ri.size)]⟩ gisom diag2).instrs =
      (h_layer_circ ri rj ra hn).instrs ++
      (if gisom then [] else
        [Instr.gate permAnsatzDgLabel
           [.gate (permAnsatzLabel ++ dgSuffix) (Instr.inverseList body).reverse
             (List.range ri.size)] ((List.range ri.size).map fun k => ri.size + k),
         Instr.gate permAnsatzDgLabel
           [.gate (permAnsatzLabel ++ dgSuffix) (Instr.inverseList body).reverse
             (List.range ri.size)] (List.range ri.size)]) ++
      qc0.instrs ++
      [Instr.gate permAnsatzLabel body (List.range ri.size),
       Instr.gate permAnsatzLabel body ((List.range ri.size).map fun k => ri.size + k)] ++
      diag2.instrs ++ (h_layer_circ ri rj ra hn).instrs := by
  cases gisom <;>
    simp [ansatz_assemble, QuantumCircuit.compose, _qc_block, QuantumCircuit.inverse,
      Instr.inverse, Instr.mapQubits, map_mapQubits_id, QuantumCircuit.numQubits, hsz] <;>
    (intro a ha; rw [List.getElem?_range ha]; rfl)

/-- The inverse-prepend facts, stated for the assembled circuit with
dg-free diagonal components. -/
theorem assembled_dg_facts (qc0 : QuantumCircuit) (ri rj ra : QuantumRegister)
    (hn : ℕ) (body : List Instr) (gisom : Bool) (diag2 : QuantumCircuit)
    (hsz : rj.size = ri.size)
    (h0 : ∀ i ∈ qc0.instrs, isDg i = false)
    (h2 : ∀ i ∈ diag2.instrs, isDg i = false) :
    (dgCount (ansatz_assemble qc0 ri rj ra hn
        ⟨[ri], [.gate permAnsatzLabel body (List.range ri.size)]⟩ gisom diag2) =
      if gisom then 0 else 2) ∧
    (gisom = true → ∀ ins ∈ (ansatz_assemble qc0 ri rj ra hn
        ⟨[ri], [.gate permAnsatzLabel body (List.range ri.size)]⟩ gisom diag2).instrs,
      isDg ins = false) ∧
    (gisom = false → ∃ m pre bodyJ bodyI rest,
      (∀ ins ∈ pre, ∃ q, ins = Instr.h q) ∧
      (ansatz_assemble qc0 ri rj ra hn
        ⟨[ri], [.gate permAnsatzLabel body (List.range ri.size)]⟩ gisom diag2).instrs =
        pre ++
        Instr.gate permAnsatzDgLabel bodyJ ((List.range m).map fun k => m + k) ::
        Instr.gate permAnsatzDgLabel bodyI (List.range m) :: rest) := by
  have hEq := ansatz_assemble_instrs qc0 ri rj ra hn body gisom diag2 hsz
  have hcount : dgCount (ansatz_assemble qc0 ri rj ra hn
      ⟨[ri], [.gate permAnsatzLabel body (List.range ri.size)]⟩ gisom diag2) =
      if gisom then 0 else 2 := by
    unfold dgCount
    rw [hEq]
    cases gisom <;>
      simp [List.filter_append, filter_isDg_eq_nil _ h0, filter_isDg_eq_nil _ h2,
        filter_isDg_h_layer]
  refine ⟨hcount, ?_, ?_⟩
  · intro hg ins hins
    rw [hg] at hcount hins
    unfold dgCount at hcount
    have hall : ∀ a ∈ (ansatz_assemble qc0 ri rj ra hn
        ⟨[ri], [.gate permAnsatzLabel body (List.range ri.size)]⟩ true diag2).instrs,
        isDg a = false := by simpa using hcount
    exact hall ins hins
  · intro hg
    subst hg
    refine ⟨ri.size, (h_layer_circ ri rj ra hn).instrs,
      [Instr.gate (permAnsatzLabel ++ dgSuffix) (Instr.inverseList body).reverse
        (List.range ri.size)],
      [Instr.gate (permAnsatzLabel ++ dgSuffix) (Instr.inverseList body).reverse
        (List.range ri.size)],
      qc0.instrs ++
        (Instr.gate permAnsatzLabel body (List.range ri.size) ::
         Instr.gate permAnsatzLabel body ((List.range ri.size).map fun k => ri.size + k) ::
         (diag2.instrs ++ (h_layer_circ ri rj ra hn).instrs)),
      h_layer_mem_h ri rj ra hn, ?_⟩
    rw [hEq]
    simp

/-- C4: for every pair of adjacency matrices accepted by `ansatz`, the
returned circuit front-composes the two inverse permutation ansatz blocks
(`PermAnsatzDg`, placed on the `j`- and `i`-register qubit positions right
after the Hadamard-layer prefix) precisely when the two shapes differ, and
contains no such block anywhere when the shapes agree. -/
theorem ansatz_inverse_prepend_iff (adj1 adj2 : NDArray) (t : Topology)
    (qc : QuantumCircuit) (ps : List (List AngleExpr))
    (h : ansatz adj1 adj2 t = .ok (qc, ps)) :
    (dgCount qc = if adj1.rows = adj2.rows ∧ adj1.cols = adj2.cols then 0 else 2) ∧
    ((adj1.rows = adj2.rows ∧ adj1.cols = adj2.cols) →
      ∀ ins ∈ qc.instrs, isDg ins = false) ∧
    (¬(adj1.rows = adj2.rows ∧ adj1.cols = adj2.cols) →
      ∃ m pre bodyJ bodyI rest,
        (∀ ins ∈ pre, ∃ q, ins = Instr.h q) ∧
        qc.instrs = pre ++
          Instr.gate permAnsatzDgLabel bodyJ ((List.range m).map fun k => m + k) ::
          Instr.gate permAnsatzDgLabel bodyI (List.range m) :: rest) := by
  unfold ansatz at h
  rw [except_bind_eq_ok] at h
  obtain ⟨a1, hv1, h⟩ := h
  rw [except_bind_eq_ok] at h
  obtain ⟨a2, hv2, h⟩ := h
  obtain rfl := validation_ok_eq _ _ hv1
  obtain rfl := validation_ok_eq _ _ hv2
  split at h
  case isFalse => simp at h
  case isTrue hle =>
    rw [except_bind_eq_ok] at h
    obtain ⟨qc0, hq0, h⟩ := h
    rw [except_bind_eq_ok] at h
    obtain ⟨r, hr, h⟩ := h
    split at h
    case isTrue => simp at h
    case isFalse h0 =>
      rw [except_bind_eq_ok] at h
      obtain ⟨pr, hperm, h⟩ := h
      rw [except_bind_eq_ok] at h
      obtain ⟨diag2, hd2, h⟩ := h
      simp only [Except.ok.injEq, Prod.mk.injEq] at h
      obtain ⟨rfl, rfl⟩ := h.symm
      obtain rfl := circ_qregs_ok _ _ hr
      obtain ⟨body, hbody⟩ := s4_ansatz_ok_shape t _ none pr.1 pr.2 hperm
      obtain ⟨ri1, rj1, ra1, bits1, rfl⟩ := adj_flatten_repr_ok_shape _ _ _ hq0
      obtain ⟨ri2, rj2, ra2, bits2, rfl⟩ := adj_flatten_repr_ok_shape _ _ _ hd2
      rw [hbody]
      have hfacts := assembled_dg_facts
        ⟨[ri1, rj1, ra1],
          [Instr.diag qAdjLabel bits1 (List.range (ri1.size + rj1.size + ra1.size))]⟩
        ⟨(QuantumCircuit.numQubits ⟨[ri1, rj1, ra1],
          [Instr.diag qAdjLabel bits1 (List.range (ri1.size + rj1.size + ra1.size))]⟩ - 1) / 2,
          "i"⟩
        ⟨(QuantumCircuit.numQubits ⟨[ri1, rj1, ra1],
          [Instr.diag qAdjLabel bits1 (List.range (ri1.size + rj1.size + ra1.size))]⟩ - 1) / 2,
          "j"⟩
        ⟨1, "a"⟩ (log2n a2.rows) body
        (a1.rows == a2.rows && a1.cols == a2.cols)
        ⟨[ri2, rj2, ra2],
          [Instr.diag qAdjLabel bits2 (List.range (ri2.size + rj2.size + ra2.size))]⟩
        rfl
        (by rintro i hi; simp only [List.mem_singleton] at hi; subst hi; rfl)
        (by rintro i hi; simp only [List.mem_singleton] at hi; subst hi; rfl)
      cases hb : (a1.rows == a2.rows && a1.cols == a2.cols) with
      | true =>
        have hsh : a1.rows = a2.rows ∧ a1.cols = a2.cols := by
          simpa [Bool.and_eq_true, beq_iff_eq] using hb
        rw [hb] at hfacts
        refine ⟨?_, fun _ => hfacts.2.1 rfl, fun hc => absurd hsh hc⟩
        rw [if_pos hsh]
        simpa using hfacts.1
      | false =>
        have hsh : ¬(a1.rows = a2.rows ∧ a1.cols = a2.cols) := by
          intro hc
          have hcontra : (a1.rows == a2.rows && a1.cols == a2.cols) = true := by
            simp [Bool.and_eq_true, beq_iff_eq, hc.1, hc.2]
          rw [hb] at hcontra
          exact Bool.false_ne_true hcontra
        rw [hb] at hfacts
        refine ⟨?_, fun hc => absurd hc hsh, fun _ => hfacts.2.2 rfl⟩
        rw [if_neg hsh]
        simpa using hfacts.1

/-- C4 witness at the spec's subgraph example (4×4 host vs 2×2 pattern:
shapes differ, so exactly two inverse blocks are prepended). -/
theorem ansatz_inverse_prepend_iff_witness :
    dgCount (ansatz_run cyc4 edge2 (.named circularKw)).1 = 2 := by
  have h := ansatz_inverse_prepend_iff cyc4 edge2 (.named circularKw)
    (ansatz_run cyc4 edge2 (.named circularKw)).1
    (ansatz_run cyc4 edge2 (.named circularKw)).2 rfl
  exact h.1.trans (if_neg (by decide))

/-- C8: with the 4×4 cycle graph as host and the 2×2 single-edge graph as
pattern, `ansatz(adj1, adj2, topology="circular")` succeeds without any
validation error, the returned circuit has `2*log2(4)+1 = 5` qubits
(index registers `i` and `j` of 2 qubits each plus one ancilla), and the
`gisom = False` inverse-prepend branch is taken (exactly two `PermAnsatzDg`
blocks appear in the circuit). -/
theorem ansatz_cycle4_edge2 :
    ansatz cyc4 edge2 (.named circularKw) =
      .ok (ansatz_run cyc4 edge2 (.named circularKw)) ∧
    (ansatz_run cyc4 edge2 (.named circularKw)).1.numQubits = 5 ∧
    dgCount (ansatz_run cyc4 edge2 (.named circularKw)).1 = 2 :=
  ⟨rfl, by decide, by decide⟩

/-! ## Two-line permutation symbols (claim C6) -/

theorem filterMap_range_unique {α : Type} (n j0 : ℕ) (f : ℕ → α) (p : ℕ → Prop)
    [DecidablePred p] (h0 : j0 < n) (hp : ∀ j, p j ↔ j = j0) :
    (List.range n).filterMap (fun j => if p j then some (f j) else none) = [f j0] := by
  revert h0
  induction n with
  | zero => omega
  | succ n ih =>
    intro h0
    rw [List.range_succ, List.filterMap_append]
    by_cases hj : j0 = n
    · subst hj
      have hpre : (List.range j0).filterMap
          (fun j => if p j then some (f j) else none) = [] := by
        rw [List.filterMap_eq_nil_iff]
        intro a ha
        rw [List.mem_range] at ha
        rw [if_neg]
        rw [hp]
        omega
      rw [hpre, List.nil_append]
      have hpj : p j0 := (hp j0).2 rfl
      simp [hpj]
    · have hlt : j0 < n := by omega
      rw [ih hlt]
      have hpn : ¬ p n := by
        rw [hp]
        omega
      simp [hpn]

theorem flatten_map_singleton {α β : Type} (l : List α) (f : α → β) :
    (l.map fun x => [f x]).flatten = l.map f := by
  induction l with
  | nil => rfl
  | cons a l ih => simp [ih]

theorem permFun_lt (n : ℕ) (σ : Equiv.Perm (Fin n)) (i : ℕ) (hi : i < n) :
    permFun n σ i < n := by
  unfold permFun
  rw [dif_pos hi]
  exact (σ ⟨i, hi⟩).isLt

theorem permFun_inv (n : ℕ) (σ : Equiv.Perm (Fin n)) (i : ℕ) (hi : i < n) :
    permFun n σ (permFun n σ.symm i) = i := by
  unfold permFun
  rw [dif_pos hi, dif_pos (σ.symm ⟨i, hi⟩).isLt]
  have he : (⟨((σ.symm ⟨i, hi⟩ : Fin n) : ℕ), (σ.symm ⟨i, hi⟩).isLt⟩ : Fin n) =
      σ.symm ⟨i, hi⟩ := rfl
  rw [he, Equiv.apply_symm_apply]

theorem nonzero_permMat (n : ℕ) (σ : Equiv.Perm (Fin n)) :
    (permMat n σ).nonzero = (List.range n).map fun i => (i, permFun n σ.symm i) := by
  unfold NDArray.nonzero
  have hrows : (permMat n σ).rows = n := rfl
  have hcols : (permMat n σ).cols = n := rfl
  rw [hrows, hcols]
  have hinner : ((List.range n).map fun i =>
      (List.range n).filterMap fun j =>
        if (permMat n σ).entry i j ≠ 0 then some (i, j) else none) =
      (List.range n).map fun i => [(i, permFun n σ.symm i)] := by
    apply List.map_congr_left
    intro i hi
    rw [List.mem_range] at hi
    apply filterMap_range_unique n (permFun n σ.symm i) (fun j => (i, j))
      (fun j => (permMat n σ).entry i j ≠ 0) (permFun_lt n σ.symm i hi)
    intro j
    unfold permMat permFun
    rw [dif_pos hi]
    dsimp only
    by_cases hj : j < n
    · rw [dif_pos hj]
      by_cases hv : ((σ ⟨j, hj⟩ : Fin n) : ℕ) = i
      · simp only [if_pos hv]
        constructor
        · rintro -
          have : σ ⟨j, hj⟩ = ⟨i, hi⟩ := Fin.ext hv
          have := congrArg (fun z => ((σ.symm z : Fin n) : ℕ)) this
          simpa [Equiv.symm_apply_apply] using this
        · rintro -
          norm_num
      · simp only [if_neg hv]
        constructor
        · intro hcon
          exact absurd rfl hcon
        · intro hj0
          exfalso
          apply hv
          have : (⟨j, hj⟩ : Fin n) = σ.symm ⟨i, hi⟩ := Fin.ext hj0
          rw [this, Equiv.apply_symm_apply]
    · rw [dif_neg hj]
      constructor
      · intro hcon
        exact absurd rfl hcon
      · intro hj0
        exfalso
        exact hj (hj0 ▸ (σ.symm ⟨i, hi⟩).isLt)
  rw [hinner, flatten_map_singleton]

theorem sorted_graphList (n : ℕ) (g : ℕ → ℕ) :
    ((List.range n).map fun i => (i, g i)).Sorted pairFstLe := by
  apply List.Pairwise.map
  · intro a b hab
    exact Nat.le_of_lt hab
  · exact List.pairwise_lt_range n

theorem sorted_lex_of_sorted_nodup (l : List (ℕ × ℕ)) (hs : l.Sorted pairFstLe)
    (hn : (l.map Prod.fst).Nodup) : l.Sorted pairLex := by
  have hne : l.Pairwise fun a b : ℕ × ℕ => a.1 ≠ b.1 := List.pairwise_map.1 hn
  exact (hs.and hne).imp fun hab => Or.inl (lt_of_le_of_ne hab.1 hab.2)

/-- Sorting any rearrangement of the graph list of `g` by the top entry
recovers the graph list itself. -/
theorem insertionSort_graph (n : ℕ) (g : ℕ → ℕ) (l : List (ℕ × ℕ))
    (hp : l.Perm ((List.range n).map fun i => (i, g i))) :
    List.insertionSort pairFstLe l = (List.range n).map fun i => (i, g i) := by
  have htKeys : ((((List.range n).map fun i => (i, g i))).map Prod.fst).Nodup := by
    rw [List.map_map]
    have hcomp : (Prod.fst ∘ fun i : ℕ => (i, g i)) = fun i => i := rfl
    rw [hcomp]
    simpa using List.nodup_range n
  have hsortedT : (((List.range n).map fun i => (i, g i))).Sorted pairLex :=
    sorted_lex_of_sorted_nodup _ (sorted_graphList n g) htKeys
  have hperm2 : (List.insertionSort pairFstLe l).Perm
      ((List.range n).map fun i => (i, g i)) :=
    (List.perm_insertionSort pairFstLe l).trans hp
  have hkeysS : ((List.insertionSort pairFstLe l).map Prod.fst).Nodup :=
    ((hperm2.map Prod.fst).nodup_iff).2 htKeys
  have hsortedS : (List.insertionSort pairFstLe l).Sorted pairLex :=
    sorted_lex_of_sorted_nodup _ (List.sorted_insertionSort pairFstLe l) hkeysS
  exact List.eq_of_perm_of_sorted hperm2 hsortedS hsortedT

/-- The reversed graph list of a bijection on `[0, n)` is a permutation of
the graph list of its inverse. -/
theorem graph_perm (n : ℕ) (e d : ℕ → ℕ)
    (he : ∀ i, i < n → e i < n) (hde : ∀ i, i < n → d (e i) = i)
    (hd : ∀ j, j < n → d j < n) (hed : ∀ j, j < n → e (d j) = j) :
    (((List.range n).map fun i => (e i, i))).Perm
      ((List.range n).map fun j => (j, d j)) := by
  have h1 : ((List.range n).map fun i => (e i, i)) =
      ((List.range n).map e).map fun j => (j, d j) := by
    rw [List.map_map]
    apply List.map_congr_left
    intro i hi
    rw [List.mem_range] at hi
    simp [Function.comp, hde i hi]
  rw [h1]
  apply List.Perm.map
  apply (List.perm_ext_iff_of_nodup ?nd1 (List.nodup_range n)).2
  case nd1 =>
    apply List.Nodup.map_on ?inj (List.nodup_range n)
    case inj =>
      intro x hx y hy hxy
      rw [List.mem_range] at hx hy
      have hx2 := hde x hx
      have hy2 := hde y hy
      rw [← hx2, ← hy2, hxy]
  intro a
  rw [List.mem_map]
  constructor
  · rintro ⟨i, hi, rfl⟩
    rw [List.mem_range] at hi
    exact List.mem_range.2 (he i hi)
  · intro ha
    rw [List.mem_range] at ha
    exact ⟨d a, List.mem_range.2 (hd a ha), hed a ha⟩

theorem perm_to_2line_false_eq (n : ℕ) (σ : Equiv.Perm (Fin n)) :
    perm_to_2line (permMat n σ) false =
      (List.range n).map fun j => (j, permFun n σ j) := by
  unfold perm_to_2line
  rw [nonzero_permMat]
  simp only [Bool.false_eq_true, if_false, List.map_map]
  apply insertionSort_graph
  have hcomp : (Prod.swap ∘ fun i : ℕ => (i, permFun n σ.symm i)) =
      fun i => (permFun n σ.symm i, i) := rfl
  rw [hcomp]
  apply graph_perm n (permFun n σ.symm) (permFun n σ)
  · exact permFun_lt n σ.symm
  · intro i hi
    exact permFun_inv n σ i hi
  · exact permFun_lt n σ
  · intro j hj
    have := permFun_inv n σ.symm j hj
    simpa using this

theorem perm_to_2line_true_eq (n : ℕ) (σ : Equiv.Perm (Fin n)) :
    perm_to_2line (permMat n σ) true =
      (List.range n).map fun i => (i, permFun n σ.symm i) := by
  unfold perm_to_2line
  rw [nonzero_permMat]
  simp only [if_true]
  exact insertionSort_graph n _ _ (List.Perm.refl _)

/-- C6: for every 0/1 permutation matrix (written `permMat n σ` with `σ`
ranging over all permutations), reconstructing a matrix from
`perm_to_2line(P)` (a 1 at (image, domain) for each symbol column, per the
spec) reproduces `P` entrywise; and `perm_to_2line(P, inverse=True)` equals
swapping the two rows of `perm_to_2line(P)` and then re-sorting the columns
by the new top row ascending. -/
theorem perm_to_2line_roundtrip (n : ℕ) (σ : Equiv.Perm (Fin n)) :
    (∀ i j, (reconstruct_from_2line n (perm_to_2line (permMat n σ) false)).entry i j =
      (permMat n σ).entry i j) ∧
    perm_to_2line (permMat n σ) true =
      List.insertionSort pairFstLe
        ((perm_to_2line (permMat n σ) false).map Prod.swap) := by
  constructor
  · intro i j
    rw [perm_to_2line_false_eq]
    unfold reconstruct_from_2line permMat
    dsimp only
    by_cases hj : j < n
    · rw [dif_pos hj]
      by_cases hv : ((σ ⟨j, hj⟩ : Fin n) : ℕ) = i
      · rw [if_pos hv, if_pos]
        refine List.mem_map.2 ⟨j, List.mem_range.2 hj, ?_⟩
        unfold permFun
        rw [dif_pos hj, hv]
      · rw [if_neg hv, if_neg]
        intro hmem
        obtain ⟨k, hk, hkeq⟩ := List.mem_map.1 hmem
        rw [Prod.mk.injEq] at hkeq
        obtain ⟨rfl, hv2⟩ := hkeq
        apply hv
        unfold permFun at hv2
        rw [dif_pos hj] at hv2
        exact hv2
    · rw [dif_neg hj, if_neg]
      intro hmem
      obtain ⟨k, hk, hkeq⟩ := List.mem_map.1 hmem
      rw [Prod.mk.injEq] at hkeq
      obtain ⟨rfl, -⟩ := hkeq
      rw [List.mem_range] at hk
      exact hj hk
  · rw [perm_to_2line_true_eq, perm_to_2line_false_eq, List.map_map]
    have hcomp : (Prod.swap ∘ fun j : ℕ => (j, permFun n σ j)) =
        fun j => (permFun n σ j, j) := rfl
    rw [hcomp]
    symm
    apply insertionSort_graph
    apply graph_perm n (permFun n σ) (permFun n σ.symm)
    · exact permFun_lt n σ
    · intro i hi
      simpa using permFun_inv n σ.symm i hi
    · exact permFun_lt n σ.symm
    · intro j hj
      exact permFun_inv n σ j hj

end Qsub
